import Mathlib

/-!
Verification development for ifmt.py, a text reflow program.

The program is embedded shallowly: Python strings become `List Char`,
the mutable context dictionary becomes the structure `Context`, and the
output stream becomes the list of emitted physical lines (each without
its terminating newline) returned alongside the updated context.
Python's recursion in `process_words` is modelled with an explicit
structural fuel argument (initialised to the token-list length, which
the recursion never exceeds) so that all definitions evaluate by kernel
reduction.  The float expression in the justification filler formula is
modelled exactly: its truncation toward zero equals integer T-division
of the cleared fraction (validated by fillPos_eq_fillPosRat against a
rational-arithmetic rendering of the expression); over the magnitudes
the program produces, double-precision evaluation and exact evaluation
truncate identically.
-/

/-- Characters of Python's string.whitespace, the set used by
is_whitespace, the tokenizer's whitespace class and rstrip. -/
def pyWS (c : Char) : Bool :=
  c == ' ' || c == '\t' || c == '\n' || c == '\r' || c == '\x0b' || c == '\x0c'

/-- Convenience: view a Lean string literal as the character list it denotes. -/
def chars (s : String) : List Char :=
  s.toList

/-- Model of is_whitespace(word): true iff every character is whitespace
(vacuously true for the empty word). -/
def isWhitespace (w : List Char) : Bool :=
  w.all pyWS

/-- A token consisting only of non-whitespace characters (a "word" token
of the tokenizer; the empty token qualifies). -/
def isWordTok (w : List Char) : Bool :=
  w.all fun c => !(pyWS c)

/-- Model of Python line.rstrip(): remove trailing whitespace. -/
def rstrip (l : List Char) : List Char :=
  (l.reverse.dropWhile pyWS).reverse

/-- Model of guess_prefix(line).  Returns none exactly where the Python
function would raise IndexError (a nonempty all-whitespace line, where
i runs past the end and line[i] is evaluated); process_line only calls
it on rstripped lines, which never hit that case. -/
def guessPrefix (line : List Char) : Option (List Char) :=
  if line.isEmpty then some [] else
  let i := (line.takeWhile pyWS).length
  if (line.drop i).take 3 = chars r"// " then some (line.take (i+3))
  else if (line.drop i).take 2 = chars r"//" then some (line.take (i+2))
  else if (line.drop i).take 2 = chars r"# " then some (line.take (i+2))
  else match line.get? i with
  | none => none
  | some c =>
    if c = '#' then
      if line.take 7 = chars r"#ifndef" then some []
      else if line.take 6 = chars r"#ifdef" then some []
      else if line.take 6 = chars r"#endif" then some []
      else some (line.take (i+1))
    else if c = '*' then
      some (line.take (i + 1 + ((line.drop (i+1)).takeWhile pyWS).length))
    else some (line.take i)

/-- Model of next_prefix(prefix): in a prefix containing an asterisk each
asterisk becomes a space; other prefixes are unchanged. -/
def nextPrefix (p : List Char) : List Char :=
  if p.contains '*' then p.map (fun c => if c = '*' then ' ' else c) else p

/-- Model of add_cols(word, current_cols, context): column position after
appending the word at the given column, with tab-stop advancement
(the tabstop is passed directly instead of inside the context). -/
def addCols (word : List Char) (cols t : Nat) : Nat :=
  match word with
  | [] => cols
  | c :: cs => if c = '\t' then addCols cs (cols + (t - cols % t)) t else addCols cs (cols + 1) t

/-- Model of retab(word, offset, tabstop): each tab is replaced by
tabstop - (offset % tabstop) spaces.  The offset is never advanced
inside the loop, exactly as in the source. -/
def retab (word : List Char) (offset t : Nat) : List Char :=
  match word with
  | [] => []
  | c :: cs =>
    (if c = '\t' then List.replicate (t - offset % t) ' ' else [c]) ++ retab cs offset t

/-- Tab expansion as the specification describes it (for refinement
comparison with retab): each tab is replaced by the number of spaces
needed to reach the next tab stop from the running column, which
advances over every character already emitted. -/
def specRetab (word : List Char) (col t : Nat) : List Char :=
  match word with
  | [] => []
  | c :: cs =>
    if c = '\t' then List.replicate (t - col % t) ' ' ++ specRetab cs (col + (t - col % t)) t
    else c :: specRetab cs (col + 1) t

/-- Fuelled model of re.split(r'(\s+)', text): alternating maximal
non-whitespace and whitespace runs, beginning and ending with possibly
empty non-whitespace chunks.  Fuel at least text.length suffices. -/
def splitWordsF (fuel : Nat) (t : List Char) : List (List Char) :=
  match fuel with
  | 0 => [t]
  | fuel + 1 =>
    let w := t.takeWhile fun c => !(pyWS c)
    let rest := t.dropWhile fun c => !(pyWS c)
    if rest.isEmpty then [w]
    else w :: rest.takeWhile pyWS :: splitWordsF fuel (rest.dropWhile pyWS)

/-- Model of re.split(r'(\s+)', text) at adequate fuel. -/
def splitWords (t : List Char) : List (List Char) :=
  splitWordsF t.length t

/-- The word list actually written by print_words_as_line: every word up
to and including the last non-whitespace word (trailing whitespace
words are not printed). -/
def printedWords (words : List (List Char)) : List (List Char) :=
  match words with
  | [] => []
  | w :: ws =>
    match printedWords ws with
    | [] => if isWhitespace w then [] else [w]
    | rest => w :: rest

/-- Truncation toward zero, the behaviour of Python's int() on a float. -/
def pyTrunc (q : ℚ) : ℤ :=
  if q < 0 then -(Rat.floor (-q)) else Rat.floor q

/-- Model of Python list.insert(idx, a): a negative index counts from the
end and indexes clamp to the list's bounds. -/
def pyInsert (l : List α) (idx : ℤ) (a : α) : List α :=
  let n : ℤ := l.length
  let k := (if idx < 0 then max (idx + n) 0 else min idx n).toNat
  l.take k ++ a :: l.drop k

/-- The filler insertion index int((n-1)-(float(i)/d)*(n-2)) from
print_words_as_line, with n the original printed-word count, d the
deficit and i the 0-based insertion counter.  Truncating that
expression toward zero is truncating the exact rational
((n-1)*d - i*(n-2))/d, modelled here by integer T-division;
fillPos_eq_fillPosRat below validates this against the
rational-arithmetic form of the source expression. -/
def fillPos (n : Nat) (d : ℤ) (i : Nat) : ℤ :=
  Int.tdiv (((n : ℤ) - 1) * d - (i : ℤ) * ((n : ℤ) - 2)) d

/-- The filler insertion index computed in exact rational arithmetic,
following the shape of the source expression. -/
def fillPosRat (n : Nat) (d : ℤ) (i : Nat) : ℤ :=
  pyTrunc (((n : ℚ) - 1) - ((i : ℚ) / (d : ℚ)) * ((n : ℚ) - 2))

/-- The filler insertion loop: perform the given number of remaining
insertions (counter i counts insertions already performed), each a
single-space word at the computed position. -/
def insertFillersAux (n : Nat) (d : ℤ) (i steps : Nat) (l : List (List Char)) : List (List Char) :=
  match steps with
  | 0 => l
  | steps + 1 => insertFillersAux n d (i+1) steps (pyInsert l (fillPos n d i) [' '])

/-- The retab pass of print_words_as_line: each printed word is retabbed
against the running column, which then advances by the retabbed word. -/
def retabList (ws : List (List Char)) (cols t : Nat) : List (List Char) :=
  match ws with
  | [] => []
  | w :: rest =>
    let w' := retab w cols t
    w' :: retabList rest (addCols w' cols t) t

/-- Column position after a sequence of words starting at the given column. -/
def addColsList (ws : List (List Char)) (cols t : Nat) : Nat :=
  match ws with
  | [] => cols
  | w :: rest => addColsList rest (addCols w cols t) t

/-- The per-document mutable context dictionary. pref models
context['prefix']; underflow is none when the key is absent or None. -/
structure Context where
  flow : Bool
  justify : Bool
  width : Nat
  tabstop : Nat
  pref : List Char
  code : Bool
  underflow : Option (List (List Char))
deriving Repr, DecidableEq

/-- Python truthiness of the underflow entry: present and a nonempty list. -/
def truthyU (u : Option (List (List Char))) : Bool :=
  match u with
  | none => false
  | some l => !l.isEmpty

/-- Model of print_words_as_line(words, context): the physical line it
writes (without the newline).  The prefix is written first; trailing
whitespace words are dropped; when justify and flow are both set, words
are retabbed and deficit single-space fillers are inserted. -/
def printWordsAsLine (words : List (List Char)) (ctx : Context) : List Char :=
  let pw := printedWords words
  if ctx.justify && ctx.flow then
    let pw2 := retabList pw 0 ctx.tabstop
    let cols := addColsList pw2 0 ctx.tabstop
    let deficit : ℤ := (ctx.width : ℤ) - (cols : ℤ)
    ctx.pref ++ (insertFillersAux pw2.length deficit 0 deficit.toNat pw2).flatten
  else
    ctx.pref ++ pw.flatten

/-- The column scan of the while loop in process_words: starting from the
column after the first word, add each subsequent word; report the index
(word_index) of the first word whose addition pushes past width, or
none when the whole list fits. -/
def scanBreak (width t : Nat) (cols done : Nat) (rest : List (List Char)) : Option Nat :=
  match rest with
  | [] => none
  | w :: ws =>
    let c := addCols w cols t
    if width < c then some done else scanBreak width t c (done+1) ws

/-- The body of process_words after the underflow prepend, with explicit
fuel (fuel at least the token-list length suffices).  An empty list
prints the bare prefix; otherwise the prefix (when nonempty) and the
first word are placed unconditionally, the scan finds the break, and on
overflow the line so far is printed, whitespace after the break is
skipped, the prefix advances to its continuation form, and the
remaining words are packed recursively.  A fully fitting list is
printed in non-flow mode, or deferred (with a synthetic trailing space
word) as underflow in flow mode. -/
def pack (fuel : Nat) (words : List (List Char)) (ctx : Context) :
    List (List Char) × Context :=
  match fuel, words with
  | _, [] => ([printWordsAsLine [] ctx], ctx)
  | 0, _ :: _ => ([], ctx)
  | fuel + 1, w0 :: rest =>
    let cols0 := if ctx.pref.isEmpty then 0 else addCols ctx.pref 0 ctx.tabstop
    let cols1 := addCols w0 cols0 ctx.tabstop
    match scanBreak ctx.width ctx.tabstop cols1 1 rest with
    | none =>
      if ctx.flow then
        ([], { ctx with underflow := some (w0 :: rest ++ [[' ']]) })
      else
        ([printWordsAsLine (w0 :: rest) ctx], ctx)
    | some j =>
      let emitted := printWordsAsLine ((w0 :: rest).take j) ctx
      let rest2 := ((w0 :: rest).drop j).dropWhile fun w => isWhitespace w
      let ctx2 := { ctx with pref := nextPrefix ctx.pref }
      if rest2.isEmpty then ([emitted], ctx2)
      else
        let r := pack fuel rest2 ctx2
        (emitted :: r.1, r.2)

/-- Model of process_words(words, context): prepend a truthy underflow to
the word list and clear it, then pack. -/
def processWords (words : List (List Char)) (ctx : Context) :
    List (List Char) × Context :=
  if truthyU ctx.underflow then
    let ws := ctx.underflow.getD [] ++ words
    pack ws.length ws { ctx with underflow := none }
  else
    pack words.length words ctx

/-- Model of resolve_context(context): when underflow is pending, print it
by a non-flow run of process_words on no new words, then restore flow. -/
def resolveContext (ctx : Context) : List (List Char) × Context :=
  if truthyU ctx.underflow then
    let r := processWords [] { ctx with flow := false }
    (r.1, { r.2 with flow := true })
  else
    ([], ctx)

/-- Model of process_line(line, context): rstrip, infer the prefix, split
the remainder into words, resolve the previous context when the prefix
changes or the line is all whitespace, apply the code-mode flow
override, and pack the words.  The none branch of guessPrefix is
unreachable because the line has been rstripped. -/
def processLine (line : List Char) (ctx : Context) : List (List Char) × Context :=
  let l := rstrip line
  match guessPrefix l with
  | none => ([], ctx)
  | some pfx =>
    let words := splitWords (l.drop pfx.length)
    let allWS := words.all fun w => isWhitespace w
    let step :=
      if pfx ≠ nextPrefix ctx.pref ∨ allWS = true then
        let r := resolveContext ctx
        (r.1, { r.2 with pref := pfx })
      else ([], ctx)
    let c1 := step.2
    let c2 := if c1.code then { c1 with flow := !(isWhitespace pfx) } else c1
    let r := processWords words c2
    (step.1 ++ r.1, r.2)

/-- The per-document driver: process every line, then resolve the final
context (flushing trailing underflow). -/
def processDoc (lines : List (List Char)) (ctx : Context) :
    List (List Char) × Context :=
  match lines with
  | [] => resolveContext ctx
  | l :: ls =>
    let r := processLine l ctx
    let r2 := processDoc ls r.2
    (r.1 ++ r2.1, r2.2)

/-- The starting context built by the command-line shell for each input. -/
def initCtx (flow justify code : Bool) (width tabstop : Nat) : Context :=
  { flow := flow, justify := justify, width := width, tabstop := tabstop,
    pref := [], code := code, underflow := none }

/-- Iterated continuation-prefix transformation. -/
def iterPrefix (k : Nat) (p : List Char) : List Char :=
  match k with
  | 0 => p
  | k + 1 => iterPrefix k (nextPrefix p)

/-- A reachable underflow entry: absent, or a nonempty deferred word list. -/
def goodU (u : Option (List (List Char))) : Prop :=
  u = none ∨ ∃ a l', u = some (a :: l')


/-! ## Basic lemmas about column accounting -/

@[simp] theorem addCols_nil (c t : Nat) : addCols [] c t = c := rfl

theorem addCols_append (a b : List Char) (c t : Nat) :
    addCols (a ++ b) c t = addCols b (addCols a c t) t := by
  induction a generalizing c with
  | nil => rfl
  | cons x xs ih =>
    simp only [List.cons_append, addCols]
    split <;> exact ih _

theorem addCols_le (w : List Char) (c t : Nat) : c ≤ addCols w c t := by
  induction w generalizing c with
  | nil => exact Nat.le_refl c
  | cons x xs ih =>
    simp only [addCols]
    split <;> exact Nat.le_trans (Nat.le_add_right _ _) (ih _)

theorem addCols_no_tab (w : List Char) (c t : Nat) (h : ∀ ch ∈ w, ch ≠ '\t') :
    addCols w c t = c + w.length := by
  induction w generalizing c with
  | nil => simp
  | cons x xs ih =>
    have hx : x ≠ '\t' := h x (List.mem_cons_self _ _)
    simp only [addCols, if_neg hx]
    rw [ih _ fun ch hm => h ch (List.mem_cons_of_mem _ hm)]
    simp [List.length_cons]
    omega

theorem addColsList_flatten (ws : List (List Char)) (c t : Nat) :
    addColsList ws c t = addCols ws.flatten c t := by
  induction ws generalizing c with
  | nil => rfl
  | cons w rest ih => simp only [addColsList, List.flatten_cons, addCols_append, ih]

theorem addColsList_le (ws : List (List Char)) (c t : Nat) : c ≤ addColsList ws c t := by
  induction ws generalizing c with
  | nil => exact Nat.le_refl c
  | cons w rest ih => exact Nat.le_trans (addCols_le w c t) (ih _)

/-! ## Concrete counterexample computations -/

/-- Claim C1, as stated, fails: with width 4 the document consisting of
the single line "  abc" is emitted unchanged at 5 columns, yet every
token of the line fits within 4 columns on its own (the overflow is the
inferred indentation prefix plus the word, not a single over-wide
token). -/
theorem widthBoundCounterexample :
    (processDoc [ chars r"  abc"] (initCtx false false false 4 8)).1 = [ chars r"  abc"] ∧
    4 < addCols ( chars r"  abc") 0 8 ∧
    ∀ tok ∈ splitWords ( chars r"  abc"), addCols tok 0 8 ≤ 4 := by
  decide

/-- Claim C2, as stated, fails: a justified line with the nonempty
comment marker as its prefix, deficit 2 and five printed words is
emitted at 12 = 2 + 10 columns, not at width 10. -/
theorem justifyWidthCounterexample :
    ((10 : ℤ) - (addColsList (retabList (printedWords
        [ chars r"aa", [' '], chars r"bb", [' '], chars r"cc"]) 0 8) 0 8 : Nat) = 2) ∧
    2 ≤ (printedWords [ chars r"aa", [' '], chars r"bb", [' '], chars r"cc"]).length ∧
    addCols (printWordsAsLine [ chars r"aa", [' '], chars r"bb", [' '], chars r"cc"]
      { flow := true, justify := true, width := 10, tabstop := 8,
        pref := chars r"# ", code := false, underflow := none }) 0 8 = 12 := by
  decide

/-- Claim C3, as stated, fails: in flow mode an all-whitespace input line
emits nothing at all (it is deferred as new underflow), rather than
being emitted as the bare prefix or a blank line. -/
theorem blankLineCounterexample :
    (processLine ( chars r"   ")
      { flow := true, justify := false, width := 80, tabstop := 8,
        pref := [], code := false, underflow := none }).1 = [] ∧
    (processLine ( chars r"   ")
      { flow := true, justify := false, width := 80, tabstop := 8,
        pref := [], code := false, underflow := none }).2.underflow = some [[], [' ']] := by
  decide

/-- Claim C4, as stated, fails: with flow and justify false and width 6,
the document "* aaaa  b" reflows to two lines, and reflowing that
output again changes the continuation line "  b" into "* b" (the
matching continuation prefix leaves the stale bullet prefix in the
context, which is then re-emitted). -/
theorem idempotenceCounterexample :
    (processDoc [ chars r"* aaaa  b"] (initCtx false false false 6 8)).1
      = [ chars r"* aaaa", chars r"  b"] ∧
    (processDoc [ chars r"* aaaa", chars r"  b"] (initCtx false false false 6 8)).1
      = [ chars r"* aaaa", chars r"* b"] ∧
    ([ chars r"* aaaa", chars r"* b"] : List (List Char)) ≠ [ chars r"* aaaa", chars r"  b"] := by
  decide

/-- Claim C5, as stated, fails: a line whose first non-whitespace
characters begin with #ifdef but which carries leading whitespace gets
the non-empty prefix " #", because the source checks the directive
literally from column 0. -/
theorem preprocCounterexample :
    guessPrefix ( chars r" #ifdef A") = some ( chars r" #") ∧
    ( chars r" #") ≠ ([] : List Char) := by
  decide

/-- Claim C6, as stated, fails: retab expands the tab of the word
consisting of a space followed by a tab (start column 0, tabstop 8)
into 8 spaces computed from the fixed start offset, yielding 9 columns,
while expansion against the running column (after the leading space)
yields 8. -/
theorem retabCounterexample :
    retab [' ', '\t'] 0 8 = List.replicate 9 ' ' ∧
    specRetab [' ', '\t'] 0 8 = List.replicate 8 ' ' ∧
    retab [' ', '\t'] 0 8 ≠ specRetab [' ', '\t'] 0 8 := by
  decide

/-- Claim C7, as stated, fails: justifying a finalized line with a single
printed word and positive deficit computes insertion position 0 for
every filler, displacing the first printable word behind the fillers. -/
theorem fillerPosCounterexample :
    printWordsAsLine [ chars r"hello"]
      { flow := true, justify := true, width := 10, tabstop := 8,
        pref := [], code := false, underflow := none } = chars r"     hello" ∧
    fillPos 1 5 0 = 0 ∧
    pyInsert [ chars r"hello"] 0 [' '] = [[' '], chars r"hello"] := by
  decide

/-! ## Prefix inference returns an initial segment -/

theorem take_min (l : List α) (n : Nat) : l.take (min n l.length) = l.take n := by
  rcases Nat.le_total n l.length with h | h
  · rw [Nat.min_eq_left h]
  · rw [Nat.min_eq_right h, List.take_length, List.take_of_length_le h]

theorem length_takeWhile_lt (l : List Char) (h : ∃ c ∈ l, pyWS c = false) :
    (l.takeWhile pyWS).length < l.length := by
  induction l with
  | nil => simp at h
  | cons x xs ih =>
    by_cases hx : pyWS x
    · rw [List.takeWhile_cons_of_pos hx]
      rcases h with ⟨c, hc, hcf⟩
      rcases List.mem_cons.mp hc with rfl | hc'
      · rw [hx] at hcf; cases hcf
      · simpa using Nat.succ_lt_succ (ih ⟨c, hc', hcf⟩)
    · rw [List.takeWhile_cons_of_neg hx]
      simp

theorem guessPrefix_take (l : List Char) (h : l = [] ∨ ∃ c ∈ l, pyWS c = false) :
    ∃ k, k ≤ l.length ∧ guessPrefix l = some (l.take k) := by
  rcases h with rfl | h
  · exact ⟨0, by simp, by simp [guessPrefix]⟩
  · have hne : l ≠ [] := by
      rcases h with ⟨c, hc, _⟩
      exact List.ne_nil_of_mem hc
    have hi : (l.takeWhile pyWS).length < l.length := length_takeWhile_lt l h
    have tk : ∀ m, ∃ k, k ≤ l.length ∧ some (l.take m) = some (l.take k) :=
      fun m => ⟨min m l.length, Nat.min_le_right _ _, by rw [take_min]⟩
    rw [guessPrefix]
    have hempty : l.isEmpty = false := by
      cases l with
      | nil => exact absurd rfl hne
      | cons a as => rfl
    rw [hempty]
    simp only [Bool.false_eq_true, if_false]
    split
    · exact tk _
    split
    · exact tk _
    split
    · exact tk _
    rw [List.get?_eq_get hi]
    split
    · rename_i heq
      exact absurd heq (by simp)
    · rename_i c heq
      by_cases hc : c = '#'
      · rw [if_pos hc]
        by_cases h7 : l.take 7 = chars r"#ifndef"
        · rw [if_pos h7]
          exact ⟨0, Nat.zero_le _, by simp⟩
        rw [if_neg h7]
        by_cases h6 : l.take 6 = chars r"#ifdef"
        · rw [if_pos h6]
          exact ⟨0, Nat.zero_le _, by simp⟩
        rw [if_neg h6]
        by_cases h6b : l.take 6 = chars r"#endif"
        · rw [if_pos h6b]
          exact ⟨0, Nat.zero_le _, by simp⟩
        rw [if_neg h6b]
        exact tk _
      · rw [if_neg hc]
        by_cases hs : c = '*'
        · rw [if_pos hs]
          exact tk _
        · rw [if_neg hs]
          exact tk _

/-- Claim C10: for every line that is empty or contains a non-whitespace
character, the inferred prefix is a literal initial segment of the
line, so the prefix concatenated with the remainder handed to the
tokenizer reconstructs the line exactly. -/
theorem guessPrefixInitialSegment (l : List Char)
    (h : l = [] ∨ ∃ c ∈ l, pyWS c = false) :
    ∃ k, k ≤ l.length ∧ guessPrefix l = some (l.take k) ∧ l.take k ++ l.drop k = l := by
  rcases guessPrefix_take l h with ⟨k, hk, hg⟩
  exact ⟨k, hk, hg, List.take_append_drop k l⟩

/-- Witness for C10 at the line "// x". -/
theorem guessPrefixInitialSegmentWitness :
    ∃ k, k ≤ ( chars r"// x").length ∧
      guessPrefix ( chars r"// x") = some (( chars r"// x").take k) ∧
      ( chars r"// x").take k ++ ( chars r"// x").drop k = chars r"// x" :=
  guessPrefixInitialSegment ( chars r"// x") (Or.inr ⟨'/', by decide, by decide⟩)

/-! ## Preprocessor protection (column 0) -/

/-- Claim C5 (amended): a line beginning at column 0 with the literal
directive #ifndef, #ifdef, or #endif receives the empty prefix.  The
protection tests the directive from column 0 only, so directives
preceded by whitespace are not covered (preprocCounterexample). -/
theorem preprocessorCol0EmptyPrefix (l : List Char)
    (h : ( chars r"#ifndef").isPrefixOf l = true ∨
         ( chars r"#ifdef").isPrefixOf l = true ∨
         ( chars r"#endif").isPrefixOf l = true) :
    guessPrefix l = some [] := by
  rcases h with h | h | h <;>
    · rcases List.isPrefixOf_iff_prefix.mp h with ⟨r, rfl⟩
      simp [guessPrefix, chars, pyWS]

/-- Witness for C5 at the line "#ifdef FOO". -/
theorem preprocessorCol0EmptyPrefixWitness :
    guessPrefix ( chars r"#ifdef FOO") = some [] :=
  preprocessorCol0EmptyPrefix ( chars r"#ifdef FOO") (Or.inr (Or.inl (by decide)))

/-! ## Retab removes tabs at a fixed offset -/

/-- Claim C6 (amended): retab removes every tab from the word, but each
tab is replaced by tabstop - (offset % tabstop) spaces computed from
the word's fixed starting offset — the same count for every tab —
rather than from the running column (retabCounterexample); the length
accounting below records that fixed per-tab expansion. -/
theorem retabFixedOffset (w : List Char) (off t : Nat) (ht : 0 < t) :
    (∀ c ∈ retab w off t, c ≠ '\t') ∧
    (retab w off t).length + w.count '\t' =
      w.length + w.count '\t' * (t - off % t) := by
  induction w with
  | nil => simp [retab]
  | cons c cs ih =>
    constructor
    · intro x hx
      rw [retab] at hx
      rcases List.mem_append.mp hx with hx1 | hx2
      · by_cases hc : c = '\t'
        · rw [if_pos hc] at hx1
          rw [List.eq_of_mem_replicate hx1]
          decide
        · rw [if_neg hc] at hx1
          rcases List.mem_singleton.mp hx1 with rfl
          exact hc
      · exact ih.1 x hx2
    · rw [retab]
      by_cases hc : c = '\t'
      · subst hc
        rw [if_pos rfl]
        have hcnt : ('\t' :: cs).count '\t' = cs.count '\t' + 1 := by
          simp [List.count_cons]
        have he : (cs.count '\t' + 1) * (t - off % t)
            = cs.count '\t' * (t - off % t) + (t - off % t) := by ring
        have h2 := ih.2
        simp only [List.length_append, List.length_replicate, List.length_cons, hcnt, he]
        omega
      · rw [if_neg hc]
        have hcnt : (c :: cs).count '\t' = cs.count '\t' := by
          simp [List.count_cons, hc]
        have h2 := ih.2
        simp only [List.length_append, List.length_cons, List.length_nil, hcnt]
        omega

/-- Witness for C6 at the word "a\t", offset 1, tabstop 8. -/
theorem retabFixedOffsetWitness :
    (∀ c ∈ retab ['a', '\t'] 1 8, c ≠ '\t') ∧
    (retab ['a', '\t'] 1 8).length + (['a', '\t'] : List Char).count '\t' =
      (['a', '\t'] : List Char).length + (['a', '\t'] : List Char).count '\t' * (8 - 1 % 8) :=
  retabFixedOffset ['a', '\t'] 1 8 (by decide)

/-! ## Filler insertion positions -/

theorem pyInsert_length (l : List α) (idx : ℤ) (a : α) :
    (pyInsert l idx a).length = l.length + 1 := by
  unfold pyInsert
  have hk : (if idx < 0 then max (idx + l.length) 0 else min idx l.length).toNat ≤ l.length := by
    split <;> omega
  simp only [List.length_append, List.length_take, List.length_cons, List.length_drop]
  omega

theorem pyInsert_ne_nil (l : List α) (idx : ℤ) (a : α) : pyInsert l idx a ≠ [] := by
  intro h
  have := pyInsert_length l idx a
  rw [h] at this
  simp at this

theorem pyInsert_head (l : List α) (idx : ℤ) (a : α) (h1 : 1 ≤ idx) (h2 : l ≠ []) :
    (pyInsert l idx a).head? = l.head? := by
  have hne : ¬ idx < 0 := by omega
  cases l with
  | nil => exact absurd rfl h2
  | cons x xs =>
    simp only [pyInsert, hne, if_false]
    obtain ⟨k, hkk⟩ : ∃ k, (min idx (((x :: xs).length : Nat) : ℤ)).toNat = k + 1 := by
      refine ⟨(min idx (((x :: xs).length : Nat) : ℤ)).toNat - 1, ?_⟩
      simp only [List.length_cons]
      omega
    rw [hkk, List.take_succ_cons]
    simp

/-- Claim C7 (amended): when the finalized line has at least two printed
words, every filler insertion index is at least 1, so position 0 is
never a filler target and the first printed word stays first; with
fewer than two printed words the formula does target position 0
(fillerPosCounterexample). -/
theorem fillerNeverAtZero :
    (∀ (n : Nat) (d : ℤ) (i : Nat), 2 ≤ n → (i : ℤ) < d → 1 ≤ fillPos n d i) ∧
    (∀ (n : Nat) (d : ℤ) (i steps : Nat) (l : List (List Char)), 2 ≤ n →
      (i : ℤ) + (steps : ℤ) ≤ d → l ≠ [] →
      (insertFillersAux n d i steps l).head? = l.head?) := by
  have part1 : ∀ (n : Nat) (d : ℤ) (i : Nat), 2 ≤ n → (i : ℤ) < d → 1 ≤ fillPos n d i := by
    intro n d i hn hi
    unfold fillPos
    have hd : 0 < d := by omega
    have hnum : d ≤ ((n : ℤ) - 1) * d - (i : ℤ) * ((n : ℤ) - 2) := by
      have h1 : 0 ≤ ((n : ℤ) - 2) * (d - (i : ℤ)) := by
        apply mul_nonneg
        · omega
        · omega
      nlinarith
    have hnn : 0 ≤ ((n : ℤ) - 1) * d - (i : ℤ) * ((n : ℤ) - 2) := by omega
    rw [Int.tdiv_eq_ediv hnn (by omega)]
    rw [Int.le_ediv_iff_mul_le hd]
    omega
  refine ⟨part1, ?_⟩
  intro n d i steps
  induction steps generalizing i with
  | zero =>
    intro l _ _ _
    rfl
  | succ steps ih =>
    intro l hn hle hne
    rw [insertFillersAux]
    rw [ih (i+1) (pyInsert l (fillPos n d i) [' ']) hn (by push_cast; push_cast at hle; omega)
      (pyInsert_ne_nil _ _ _)]
    exact pyInsert_head l _ [' '] (part1 n d i hn (by omega)) hne

/-- Witness for C7: with three printed words and deficit two, each filler
index is at least 1 and the insertion loop preserves the head word. -/
theorem fillerNeverAtZeroWitness :
    1 ≤ fillPos 3 2 1 ∧
    (insertFillersAux 3 2 0 2 [ chars r"aa", [' '], chars r"bb"]).head? =
      some ( chars r"aa") :=
  ⟨fillerNeverAtZero.1 3 2 1 (by decide) (by decide),
   (fillerNeverAtZero.2 3 2 0 2 [ chars r"aa", [' '], chars r"bb"]
      (by decide) (by decide) (by decide)).trans (by decide)⟩

/-! ## Justified lines span prefix plus width columns -/

theorem retab_no_tab (w : List Char) (off t : Nat) : ∀ c ∈ retab w off t, c ≠ '\t' := by
  induction w with
  | nil => simp [retab]
  | cons c cs ih =>
    intro x hx
    rw [retab] at hx
    rcases List.mem_append.mp hx with hx1 | hx2
    · by_cases hc : c = '\t'
      · rw [if_pos hc] at hx1
        rw [List.eq_of_mem_replicate hx1]
        decide
      · rw [if_neg hc] at hx1
        rcases List.mem_singleton.mp hx1 with rfl
        exact hc
    · exact ih x hx2

theorem retabList_no_tab (ws : List (List Char)) (cols t : Nat) :
    ∀ w ∈ retabList ws cols t, ∀ c ∈ w, c ≠ '\t' := by
  induction ws generalizing cols with
  | nil => simp [retabList]
  | cons w rest ih =>
    intro w' hw'
    rw [retabList] at hw'
    rcases List.mem_cons.mp hw' with rfl | h
    · exact retab_no_tab w cols t
    · exact ih _ w' h

theorem pyInsert_mem (l : List α) (idx : ℤ) (a x : α) (hx : x ∈ pyInsert l idx a) :
    x ∈ l ∨ x = a := by
  unfold pyInsert at hx
  rcases List.mem_append.mp hx with h | h
  · exact Or.inl (List.take_subset _ _ h)
  · rcases List.mem_cons.mp h with rfl | h
    · exact Or.inr rfl
    · exact Or.inl (List.drop_subset _ _ h)

theorem insertFillersAux_no_tab (n : Nat) (d : ℤ) (i steps : Nat) (l : List (List Char))
    (h : ∀ w ∈ l, ∀ c ∈ w, c ≠ '\t') :
    ∀ w ∈ insertFillersAux n d i steps l, ∀ c ∈ w, c ≠ '\t' := by
  induction steps generalizing i l with
  | zero => exact h
  | succ steps ih =>
    rw [insertFillersAux]
    apply ih
    intro w hw
    rcases pyInsert_mem l (fillPos n d i) [' '] w hw with hwl | rfl
    · exact h w hwl
    · intro c hc
      rcases List.mem_singleton.mp hc with rfl
      decide

theorem pyInsert_flatten_length (l : List (List Char)) (idx : ℤ) (a : List Char) :
    (pyInsert l idx a).flatten.length = l.flatten.length + a.length := by
  unfold pyInsert
  have hsplit : (l.take ((if idx < 0 then max (idx + l.length) 0
        else min idx l.length).toNat)).flatten.length
      + (l.drop ((if idx < 0 then max (idx + l.length) 0
        else min idx l.length).toNat)).flatten.length = l.flatten.length := by
    conv_rhs => rw [← List.take_append_drop
      ((if idx < 0 then max (idx + (l.length : ℤ)) 0 else min idx l.length).toNat) l]
    rw [List.flatten_append, List.length_append]
  simp only [List.flatten_append, List.flatten_cons, List.length_append]
  omega

theorem insertFillersAux_flatten_length (n : Nat) (d : ℤ) (i steps : Nat)
    (l : List (List Char)) :
    (insertFillersAux n d i steps l).flatten.length = l.flatten.length + steps := by
  induction steps generalizing i l with
  | zero => rfl
  | succ steps ih =>
    rw [insertFillersAux, ih, pyInsert_flatten_length]
    simp only [List.length_singleton]
    omega

/-- Claim C2 (amended): when justify and flow are both set and the
finalized line has nonnegative deficit and at least two printed words,
the emitted physical line spans exactly the prefix's columns plus
width.  It reaches width itself only for the empty prefix, because the
deficit is computed against the printed words alone
(justifyWidthCounterexample). -/
theorem justifyExactColumns (ctx : Context) (words : List (List Char))
    (hj : ctx.justify = true) (hf : ctx.flow = true)
    (hd : addColsList (retabList (printedWords words) 0 ctx.tabstop) 0 ctx.tabstop ≤ ctx.width)
    (hn : 2 ≤ (printedWords words).length) :
    addCols (printWordsAsLine words ctx) 0 ctx.tabstop =
      addCols ctx.pref 0 ctx.tabstop + ctx.width := by
  have hjf : (ctx.justify && ctx.flow) = true := by rw [hj, hf]; rfl
  rw [printWordsAsLine]
  rw [if_pos hjf]
  set pw2 := retabList (printedWords words) 0 ctx.tabstop with hpw2
  set cols := addColsList pw2 0 ctx.tabstop with hcols
  set deficit : ℤ := (ctx.width : ℤ) - (cols : ℤ) with hdef
  set final := insertFillersAux pw2.length deficit 0 deficit.toNat pw2 with hfinal
  have hnt : ∀ c ∈ final.flatten, c ≠ '\t' := by
    intro c hc
    rcases List.mem_flatten.mp hc with ⟨w, hw, hcw⟩
    exact insertFillersAux_no_tab _ _ _ _ _ (retabList_no_tab _ _ _) w hw c hcw
  have hnt2 : ∀ c ∈ pw2.flatten, c ≠ '\t' := by
    intro c hc
    rcases List.mem_flatten.mp hc with ⟨w, hw, hcw⟩
    exact retabList_no_tab _ _ _ w hw c hcw
  have hcols2 : cols = pw2.flatten.length := by
    rw [hcols, addColsList_flatten, addCols_no_tab _ _ _ hnt2]
    omega
  have hlen : final.flatten.length = pw2.flatten.length + deficit.toNat := by
    rw [hfinal, insertFillersAux_flatten_length]
  rw [addCols_append, addCols_no_tab _ _ _ hnt, hlen, ← hcols2]
  have : deficit.toNat = ctx.width - cols := by omega
  omega

/-- Witness for C2 with empty prefix, width 9 and three printed words. -/
theorem justifyExactColumnsWitness :
    addCols (printWordsAsLine [ chars r"aa", [' '], chars r"bb"]
      { flow := true, justify := true, width := 9, tabstop := 8,
        pref := [], code := false, underflow := none }) 0 8 = addCols [] 0 8 + 9 :=
  justifyExactColumns
    { flow := true, justify := true, width := 9, tabstop := 8,
      pref := [], code := false, underflow := none }
    [ chars r"aa", [' '], chars r"bb"] rfl rfl (by decide) (by decide)

/-! ## Underflow invariant -/

theorem pack_underflow_nonflow (fuel : Nat) (words : List (List Char)) (ctx : Context)
    (h : ctx.flow = false) : (pack fuel words ctx).2.underflow = ctx.underflow := by
  induction fuel generalizing words ctx with
  | zero =>
    cases words with
    | nil => rfl
    | cons w0 rest => rfl
  | succ fuel ih =>
    cases words with
    | nil => rfl
    | cons w0 rest =>
      rw [pack]
      cases hsb : scanBreak ctx.width ctx.tabstop
          (addCols w0 (if ctx.pref.isEmpty then 0 else addCols ctx.pref 0 ctx.tabstop)
            ctx.tabstop) 1 rest with
      | none =>
        simp only [hsb, h, Bool.false_eq_true, if_false]
      | some j =>
        simp only [hsb]
        by_cases hre : (((w0 :: rest).drop j).dropWhile fun w => isWhitespace w).isEmpty
        · simp only [hre, if_true]
        · simp only [hre, Bool.false_eq_true, if_false]
          exact ih _ { ctx with pref := nextPrefix ctx.pref } h

theorem pack_underflow_shape (fuel : Nat) (words : List (List Char)) (ctx : Context) :
    (pack fuel words ctx).2.underflow = ctx.underflow ∨
      ∃ a l', (pack fuel words ctx).2.underflow = some (a :: l') := by
  induction fuel generalizing words ctx with
  | zero =>
    cases words with
    | nil => exact Or.inl rfl
    | cons w0 rest => exact Or.inl rfl
  | succ fuel ih =>
    cases words with
    | nil => exact Or.inl rfl
    | cons w0 rest =>
      rw [pack]
      cases hsb : scanBreak ctx.width ctx.tabstop
          (addCols w0 (if ctx.pref.isEmpty then 0 else addCols ctx.pref 0 ctx.tabstop)
            ctx.tabstop) 1 rest with
      | none =>
        simp only [hsb]
        by_cases hf : ctx.flow
        · simp only [hf, if_true]
          exact Or.inr ⟨w0, rest ++ [[' ']], rfl⟩
        · simp only [hf, Bool.false_eq_true, if_false]
          simp
      | some j =>
        simp only [hsb]
        by_cases hre : (((w0 :: rest).drop j).dropWhile fun w => isWhitespace w).isEmpty
        · simp only [hre, if_true]
          simp
        · simp only [hre, Bool.false_eq_true, if_false]
          exact ih _ { ctx with pref := nextPrefix ctx.pref }

theorem processWords_underflow_nonflow (words : List (List Char)) (ctx : Context)
    (h : ctx.flow = false) :
    truthyU (processWords words ctx).2.underflow = false := by
  by_cases hu : truthyU ctx.underflow
  · simp only [processWords, hu, if_true]
    rw [pack_underflow_nonflow _ _ { ctx with underflow := none } h]
    rfl
  · simp only [processWords, hu, Bool.false_eq_true, if_false]
    rw [pack_underflow_nonflow _ _ ctx h]
    exact Bool.eq_false_iff.mpr hu

theorem processWords_underflow_good (words : List (List Char)) (ctx : Context)
    (h : goodU ctx.underflow) : goodU (processWords words ctx).2.underflow := by
  rw [processWords]
  by_cases hu : truthyU ctx.underflow
  · rw [if_pos hu]
    rcases pack_underflow_shape ((ctx.underflow.getD [] ++ words).length)
        (ctx.underflow.getD [] ++ words) { ctx with underflow := none } with h1 | h1
    · exact Or.inl h1
    · exact Or.inr h1
  · rw [if_neg hu]
    rcases pack_underflow_shape words.length words ctx with h1 | h1
    · rw [h1]; exact h
    · exact Or.inr h1

theorem resolveContext_underflow (ctx : Context) (h : goodU ctx.underflow) :
    (resolveContext ctx).2.underflow = none := by
  rw [resolveContext]
  by_cases hu : truthyU ctx.underflow
  · rw [if_pos hu]
    have := processWords_underflow_nonflow [] { ctx with flow := false } rfl
    have hg := processWords_underflow_good [] { ctx with flow := false } h
    rcases hg with hg | ⟨a, l', hg⟩
    · exact hg
    · rw [hg] at this
      simp [truthyU] at this
  · rw [if_neg hu]
    rcases h with h | ⟨a, l', h⟩
    · exact h
    · rw [h] at hu
      simp [truthyU] at hu

theorem processLine_underflow_good (line : List Char) (ctx : Context)
    (h : goodU ctx.underflow) : goodU (processLine line ctx).2.underflow := by
  rw [processLine]
  cases hg : guessPrefix (rstrip line) with
  | none => exact h
  | some pfx =>
    simp only []
    by_cases hcond : pfx ≠ nextPrefix ctx.pref ∨
        (splitWords ((rstrip line).drop pfx.length)).all (fun w => isWhitespace w) = true
    · rw [if_pos hcond]
      apply processWords_underflow_good
      have hres := resolveContext_underflow ctx h
      split
      · exact Or.inl hres
      · exact Or.inl hres
    · rw [if_neg hcond]
      apply processWords_underflow_good
      split
      · exact h
      · exact h

theorem processDoc_underflow_none (lines : List (List Char)) (ctx : Context)
    (h : goodU ctx.underflow) : (processDoc lines ctx).2.underflow = none := by
  induction lines generalizing ctx with
  | nil => exact resolveContext_underflow ctx h
  | cons l ls ih =>
    rw [processDoc]
    exact ih _ (processLine_underflow_good l ctx h)

/-- Claim C8: underflow can be truthy only in flow mode (a non-flow
invocation of the packing routine always leaves it falsy); every
invocation of process_words with a truthy underflow first prepends it
to the new words and clears it; and a whole-document run always ends
with no underflow after the final flush. -/
theorem underflowInvariant :
    (∀ (words : List (List Char)) (ctx : Context), ctx.flow = false →
      truthyU (processWords words ctx).2.underflow = false) ∧
    (∀ (words : List (List Char)) (ctx : Context) (u : List (List Char)),
      ctx.underflow = some u → u ≠ [] →
      processWords words ctx = processWords (u ++ words) { ctx with underflow := none }) ∧
    (∀ (lines : List (List Char)) (f j c : Bool) (w t : Nat),
      (processDoc lines (initCtx f j c w t)).2.underflow = none) := by
  refine ⟨processWords_underflow_nonflow, ?_, ?_⟩
  · intro words ctx u hu hne
    have htr : truthyU ctx.underflow = true := by
      rw [hu]
      simp [truthyU, hne]
    conv_lhs => rw [processWords]
    rw [if_pos htr]
    conv_rhs => rw [processWords]
    rw [if_neg (by simp [truthyU])]
    rw [hu]
    rfl
  · intro lines f j c w t
    exact processDoc_underflow_none lines (initCtx f j c w t) (Or.inl rfl)

/-- Witness for C8: a non-flow invocation leaves underflow falsy; a
truthy underflow is prepended and cleared; a short document run ends
with no underflow. -/
theorem underflowInvariantWitness :
    truthyU (processWords [ chars r"a"]
      { flow := false, justify := false, width := 5, tabstop := 8,
        pref := [], code := false, underflow := none }).2.underflow = false ∧
    processWords [ chars r"b"]
      { flow := true, justify := false, width := 5, tabstop := 8,
        pref := [], code := false, underflow := some [ chars r"a", [' ']] } =
      processWords ([ chars r"a", [' ']] ++ [ chars r"b"])
        { flow := true, justify := false, width := 5, tabstop := 8,
          pref := [], code := false, underflow := none } ∧
    (processDoc [ chars r"x y"] (initCtx true false false 10 8)).2.underflow = none :=
  ⟨underflowInvariant.1 [ chars r"a"] _ rfl,
   underflowInvariant.2.1 [ chars r"b"] _ [ chars r"a", [' ']] rfl (by decide),
   underflowInvariant.2.2 [ chars r"x y"] true false false 10 8⟩

/-! ## Termination structure of the packing routine -/

theorem length_dropWhile_le (p : α → Bool) (l : List α) :
    (l.dropWhile p).length ≤ l.length :=
  (List.dropWhile_sublist p).length_le

theorem scanBreak_some_ge (width t : Nat) (rest : List (List Char)) :
    ∀ (cols done j : Nat), scanBreak width t cols done rest = some j →
      done ≤ j ∧ j - done < rest.length := by
  induction rest with
  | nil =>
    intro cols done j h
    exact absurd h (by simp [scanBreak])
  | cons w ws ih =>
    intro cols done j h
    rw [scanBreak] at h
    by_cases hc : width < addCols w cols t
    · rw [if_pos hc] at h
      rcases Option.some.inj h with rfl
      simp
    · rw [if_neg hc] at h
      rcases ih _ _ _ h with ⟨h1, h2⟩
      constructor
      · omega
      · simp only [List.length_cons]
        omega

theorem pack_line_count (fuel : Nat) (words : List (List Char)) (ctx : Context) :
    (pack fuel words ctx).1.length ≤ max 1 words.length := by
  induction fuel generalizing words ctx with
  | zero =>
    cases words with
    | nil => simp [pack]
    | cons w0 rest => simp [pack]
  | succ fuel ih =>
    cases words with
    | nil => simp [pack]
    | cons w0 rest =>
      rw [pack]
      cases hsb : scanBreak ctx.width ctx.tabstop
          (addCols w0 (if ctx.pref.isEmpty then 0 else addCols ctx.pref 0 ctx.tabstop)
            ctx.tabstop) 1 rest with
      | none =>
        simp only [hsb]
        by_cases hf : ctx.flow
        · simp only [hf, if_true]
          simp
        · simp only [hf, Bool.false_eq_true, if_false]
          simp
      | some j =>
        simp only [hsb]
        rcases scanBreak_some_ge ctx.width ctx.tabstop rest _ _ _ hsb with ⟨hj1, hj2⟩
        by_cases hre : (((w0 :: rest).drop j).dropWhile fun w => isWhitespace w).isEmpty
        · simp only [hre, if_true]
          simp
        · simp only [hre, Bool.false_eq_true, if_false]
          have hlt : (((w0 :: rest).drop j).dropWhile fun w => isWhitespace w).length
              ≤ rest.length := by
            have h1 := length_dropWhile_le (fun w => isWhitespace w) ((w0 :: rest).drop j)
            have h2 : ((w0 :: rest).drop j).length = (w0 :: rest).length - j :=
              List.length_drop j (w0 :: rest)
            simp only [List.length_cons] at h2
            omega
          have hrec := ih (((w0 :: rest).drop j).dropWhile fun w => isWhitespace w)
            { ctx with pref := nextPrefix ctx.pref }
          have hne : (((w0 :: rest).drop j).dropWhile fun w => isWhitespace w).length ≠ 0 := by
            intro h0
            rw [List.length_eq_zero] at h0
            rw [h0] at hre
            exact hre rfl
          simp only [List.length_cons]
          omega

/-- Claim C9: the packing routine terminates structurally — a lone word
that alone exceeds width is still placed and yields exactly one emitted
line; the token list passed to the recursive call is strictly shorter
than the current one; and the number of emitted lines never exceeds
the number of tokens (or one, for an empty token list). -/
theorem packTerminates :
    (∀ (ctx : Context) (w : List Char), ctx.flow = false →
      truthyU ctx.underflow = false → 0 < ctx.tabstop →
      ctx.width < addCols w (if ctx.pref.isEmpty then 0
        else addCols ctx.pref 0 ctx.tabstop) ctx.tabstop →
      (processWords [w] ctx).1 = [printWordsAsLine [w] ctx]) ∧
    (∀ (words : List (List Char)) (j : Nat), 1 ≤ j → words ≠ [] →
      ((words.drop j).dropWhile fun w => isWhitespace w).length < words.length) ∧
    (∀ (fuel : Nat) (words : List (List Char)) (ctx : Context),
      (pack fuel words ctx).1.length ≤ max 1 words.length) := by
  refine ⟨?_, ?_, pack_line_count⟩
  · intro ctx w hf hu ht hw
    simp only [processWords, hu, Bool.false_eq_true, if_false]
    simp [pack, scanBreak, hf]
  · intro words j hj hne
    have h1 := length_dropWhile_le (fun w => isWhitespace w) (words.drop j)
    have h2 : (words.drop j).length = words.length - j := List.length_drop j words
    have h3 : words.length ≠ 0 := by
      intro h0
      rw [List.length_eq_zero] at h0
      exact hne h0
    omega

/-- Witness for C9: a single 7-column word at width 3 in non-flow mode is
emitted as exactly one line; a remainder after a break at index 1 is
strictly shorter; the line-count bound at a concrete packing. -/
theorem packTerminatesWitness :
    (processWords [ chars r"abcdefg"]
      { flow := false, justify := false, width := 3, tabstop := 8,
        pref := chars r"# ", code := false, underflow := none }).1 =
      [printWordsAsLine [ chars r"abcdefg"]
        { flow := false, justify := false, width := 3, tabstop := 8,
          pref := chars r"# ", code := false, underflow := none }] ∧
    ((([ chars r"a", [' '], chars r"b"] : List (List Char)).drop 1).dropWhile
      (fun w => isWhitespace w)).length < 3 ∧
    (pack 3 [ chars r"a", [' '], chars r"b"] (initCtx false false false 1 8)).1.length
      ≤ max 1 3 :=
  ⟨packTerminates.1 _ ( chars r"abcdefg") rfl rfl (by decide) (by decide),
   packTerminates.2.1 [ chars r"a", [' '], chars r"b"] 1 (by decide) (by decide),
   packTerminates.2.2 3 [ chars r"a", [' '], chars r"b"] (initCtx false false false 1 8)⟩

/-! ## All-whitespace lines flush the pending context -/

theorem pack_code (fuel : Nat) (words : List (List Char)) (ctx : Context) :
    (pack fuel words ctx).2.code = ctx.code := by
  induction fuel generalizing words ctx with
  | zero =>
    cases words with
    | nil => rfl
    | cons w0 rest => rfl
  | succ fuel ih =>
    cases words with
    | nil => rfl
    | cons w0 rest =>
      rw [pack]
      cases hsb : scanBreak ctx.width ctx.tabstop
          (addCols w0 (if ctx.pref.isEmpty then 0 else addCols ctx.pref 0 ctx.tabstop)
            ctx.tabstop) 1 rest with
      | none =>
        simp only [hsb]
        by_cases hf : ctx.flow
        · simp only [hf, if_true]
        · simp only [hf, Bool.false_eq_true, if_false]
      | some j =>
        simp only [hsb]
        by_cases hre : (((w0 :: rest).drop j).dropWhile fun w => isWhitespace w).isEmpty
        · simp only [hre, if_true]
        · simp only [hre, Bool.false_eq_true, if_false]
          exact ih _ { ctx with pref := nextPrefix ctx.pref }

theorem pack_flow (fuel : Nat) (words : List (List Char)) (ctx : Context) :
    (pack fuel words ctx).2.flow = ctx.flow := by
  induction fuel generalizing words ctx with
  | zero =>
    cases words with
    | nil => rfl
    | cons w0 rest => rfl
  | succ fuel ih =>
    cases words with
    | nil => rfl
    | cons w0 rest =>
      rw [pack]
      cases hsb : scanBreak ctx.width ctx.tabstop
          (addCols w0 (if ctx.pref.isEmpty then 0 else addCols ctx.pref 0 ctx.tabstop)
            ctx.tabstop) 1 rest with
      | none =>
        simp only [hsb]
        by_cases hf : ctx.flow
        · simp only [hf, if_true]
        · simp only [hf, Bool.false_eq_true, if_false]
      | some j =>
        simp only [hsb]
        by_cases hre : (((w0 :: rest).drop j).dropWhile fun w => isWhitespace w).isEmpty
        · simp only [hre, if_true]
        · simp only [hre, Bool.false_eq_true, if_false]
          exact ih _ { ctx with pref := nextPrefix ctx.pref }

theorem processWords_code (words : List (List Char)) (ctx : Context) :
    (processWords words ctx).2.code = ctx.code := by
  rw [processWords]
  split
  · exact pack_code _ _ { ctx with underflow := none }
  · exact pack_code _ _ ctx

theorem resolveContext_code (ctx : Context) :
    (resolveContext ctx).2.code = ctx.code := by
  rw [resolveContext]
  split
  · exact processWords_code [] { ctx with flow := false }
  · rfl

theorem resolveContext_untruthy (ctx : Context) :
    truthyU (resolveContext ctx).2.underflow = false := by
  rw [resolveContext]
  split
  · exact processWords_underflow_nonflow [] { ctx with flow := false } rfl
  · rename_i h
    exact Bool.eq_false_iff.mpr h

theorem rstrip_of_all_ws (line : List Char) (hw : isWhitespace line = true) :
    rstrip line = [] := by
  rw [rstrip, List.dropWhile_eq_nil_iff.mpr, List.reverse_nil]
  intro x hx
  exact List.all_eq_true.mp hw x (List.mem_reverse.mp hx)

/-- Claim C3 (amended): an all-whitespace input line (code mode off)
always flushes any pending carry-over through resolve_context in
forced non-flow mode and resets the prefix to empty; after the flush,
in non-flow mode the line itself is emitted as a blank line, but in
flow mode it is not emitted at all — it is deferred as the new
underflow, an empty word plus a synthetic space
(blankLineCounterexample). -/
theorem blankLineFlushes (ctx : Context) (line : List Char)
    (hc : ctx.code = false) (hw : isWhitespace line = true) :
    processLine line ctx =
      (let r := resolveContext ctx
       if r.2.flow then (r.1, { r.2 with pref := [], underflow := some [[], [' ']] })
       else (r.1 ++ [[]], { r.2 with pref := [] })) := by
  have hr : rstrip line = [] := rstrip_of_all_ws line hw
  have hcode : (resolveContext ctx).2.code = false := by rw [resolveContext_code]; exact hc
  have huf : truthyU (resolveContext ctx).2.underflow = false := resolveContext_untruthy ctx
  by_cases hfl : (resolveContext ctx).2.flow
  · simp only [processLine, hr, guessPrefix, List.isEmpty_nil, if_true, splitWords,
      splitWordsF, processWords, pack, scanBreak, printWordsAsLine, printedWords,
      isWhitespace, List.all_nil, hcode, huf, hfl, hcode]
    simp [hfl, huf]
  · simp only [processLine, hr, guessPrefix, List.isEmpty_nil, if_true, splitWords,
      splitWordsF, processWords, pack, scanBreak, printWordsAsLine, printedWords,
      isWhitespace, List.all_nil, hcode, huf]
    simp [hfl, huf]

/-- Witness for C3: a blank line in flow mode with a pending paragraph
flushes the paragraph and defers itself as underflow. -/
theorem blankLineFlushesWitness :
    processLine ( chars r"  ")
      { flow := true, justify := false, width := 80, tabstop := 8,
        pref := [], code := false, underflow := some [ chars r"hi", [' ']] } =
      (let r := resolveContext
        { flow := true, justify := false, width := 80, tabstop := 8,
          pref := [], code := false, underflow := some [ chars r"hi", [' ']] }
       if r.2.flow then (r.1, { r.2 with pref := [], underflow := some [[], [' ']] })
       else (r.1 ++ [[]], { r.2 with pref := [] })) :=
  blankLineFlushes
    { flow := true, justify := false, width := 80, tabstop := 8,
      pref := [], code := false, underflow := some [ chars r"hi", [' ']] }
    ( chars r"  ") rfl (by decide)

/-! ## Width bound in non-justify mode -/

theorem printWordsAsLine_nonjustify (ws : List (List Char)) (ctx : Context)
    (hj : ctx.justify = false) :
    printWordsAsLine ws ctx = ctx.pref ++ (printedWords ws).flatten := by
  simp [printWordsAsLine, hj]

theorem printedWords_isPrefix (l : List (List Char)) : printedWords l <+: l := by
  induction l with
  | nil => exact List.nil_prefix
  | cons w ws ih =>
    rw [printedWords]
    cases hp : printedWords ws with
    | nil =>
      by_cases hws : isWhitespace w
      · rw [if_pos hws]
        exact List.nil_prefix
      · rw [if_neg hws]
        exact ⟨ws, rfl⟩
    | cons a as =>
      rw [hp] at ih
      rcases ih with ⟨r, hr⟩
      exact ⟨r, by rw [List.cons_append, hr]⟩

theorem prefix_flatten {l₁ l₂ : List (List Char)} (h : l₁ <+: l₂) :
    l₁.flatten <+: l₂.flatten := by
  rcases h with ⟨r, rfl⟩
  rw [List.flatten_append]
  exact ⟨r.flatten, rfl⟩

theorem addCols_prefix_le {a b : List Char} (h : a <+: b) (c t : Nat) :
    addCols a c t ≤ addCols b c t := by
  rcases h with ⟨r, rfl⟩
  rw [addCols_append]
  exact addCols_le _ _ _

theorem cols0_eq (p : List Char) (t : Nat) :
    (if p.isEmpty then 0 else addCols p 0 t) = addCols p 0 t := by
  cases p with
  | nil => rfl
  | cons c cs => rfl

theorem scanBreak_none_bound (width t : Nat) (rest : List (List Char)) :
    ∀ (cols done : Nat), scanBreak width t cols done rest = none →
      rest = [] ∨ addColsList rest cols t ≤ width := by
  induction rest with
  | nil =>
    intro _ _ _
    exact Or.inl rfl
  | cons w ws ih =>
    intro cols done h
    rw [scanBreak] at h
    by_cases hc : width < addCols w cols t
    · rw [if_pos hc] at h
      cases h
    · rw [if_neg hc] at h
      right
      rcases ih _ _ h with rfl | hb
      · simpa [addColsList] using Nat.le_of_not_lt hc
      · exact hb

theorem scanBreak_some_bound (width t : Nat) (rest : List (List Char)) :
    ∀ (cols done j : Nat), scanBreak width t cols done rest = some j →
      j = done ∨ addColsList (rest.take (j - done)) cols t ≤ width := by
  induction rest with
  | nil =>
    intro _ _ _ h
    cases h
  | cons w ws ih =>
    intro cols done j h
    rw [scanBreak] at h
    by_cases hc : width < addCols w cols t
    · rw [if_pos hc] at h
      exact Or.inl (Option.some.inj h).symm
    · rw [if_neg hc] at h
      right
      have hge := (scanBreak_some_ge width t ws _ _ _ h).1
      rcases ih _ _ _ h with heq | hb
      · have h1 : j - done = 1 := by omega
        rw [h1]
        simpa [addColsList] using Nat.le_of_not_lt hc
      · have hjd : j - done = (j - (done + 1)) + 1 := by omega
        rw [hjd, List.take_succ_cons]
        exact hb

theorem emission_cases (ctx : Context) (ws' : List (List Char)) (hj : ctx.justify = false)
    (hcl : ∀ w ∈ ws', isWhitespace w = true ∨ isWordTok w = true)
    (hfit : addColsList ws' (addCols ctx.pref 0 ctx.tabstop) ctx.tabstop ≤ ctx.width ∨
      ∃ w1, ws' = [w1]) :
    addCols (printWordsAsLine ws' ctx) 0 ctx.tabstop ≤ ctx.width ∨
    ∃ k w, isWordTok w = true ∧ printWordsAsLine ws' ctx = iterPrefix k ctx.pref ++ w := by
  rcases hfit with hfit | ⟨w1, rfl⟩
  · left
    rw [printWordsAsLine_nonjustify _ _ hj, addCols_append]
    calc addCols (printedWords ws').flatten (addCols ctx.pref 0 ctx.tabstop) ctx.tabstop
        ≤ addCols ws'.flatten (addCols ctx.pref 0 ctx.tabstop) ctx.tabstop :=
          addCols_prefix_le (prefix_flatten (printedWords_isPrefix _)) _ _
      _ = addColsList ws' (addCols ctx.pref 0 ctx.tabstop) ctx.tabstop :=
          (addColsList_flatten _ _ _).symm
      _ ≤ ctx.width := hfit
  · right
    rw [printWordsAsLine_nonjustify _ _ hj]
    by_cases hws : isWhitespace w1
    · refine ⟨0, [], rfl, ?_⟩
      simp [printedWords, hws, iterPrefix]
    · refine ⟨0, w1, ?_, ?_⟩
      · rcases hcl w1 (by simp) with h | h
        · exact absurd h hws
        · exact h
      · simp [printedWords, hws, iterPrefix]

theorem pack_width_bound (fuel : Nat) (words : List (List Char)) (ctx : Context)
    (hj : ctx.justify = false)
    (hcl : ∀ w ∈ words, isWhitespace w = true ∨ isWordTok w = true) :
    ∀ L ∈ (pack fuel words ctx).1,
      addCols L 0 ctx.tabstop ≤ ctx.width ∨
      ∃ k w, isWordTok w = true ∧ L = iterPrefix k ctx.pref ++ w := by
  induction fuel generalizing words ctx with
  | zero =>
    cases words with
    | nil =>
      intro L hL
      rcases List.mem_singleton.mp hL with rfl
      right
      refine ⟨0, [], rfl, ?_⟩
      rw [printWordsAsLine_nonjustify _ _ hj]
      simp [printedWords, iterPrefix]
    | cons w0 rest =>
      intro L hL
      exact absurd hL (by simp [pack])
  | succ fuel ih =>
    cases words with
    | nil =>
      intro L hL
      rcases List.mem_singleton.mp hL with rfl
      right
      refine ⟨0, [], rfl, ?_⟩
      rw [printWordsAsLine_nonjustify _ _ hj]
      simp [printedWords, iterPrefix]
    | cons w0 rest =>
      intro L hL
      rw [pack] at hL
      cases hsb : scanBreak ctx.width ctx.tabstop
          (addCols w0 (if ctx.pref.isEmpty then 0 else addCols ctx.pref 0 ctx.tabstop)
            ctx.tabstop) 1 rest with
      | none =>
        simp only [hsb] at hL
        by_cases hf : ctx.flow
        · simp only [hf, if_true] at hL
          exact absurd hL (by simp)
        · simp only [hf, Bool.false_eq_true, if_false] at hL
          rcases List.mem_singleton.mp hL with rfl
          apply emission_cases ctx (w0 :: rest) hj hcl
          rcases scanBreak_none_bound _ _ rest _ _ hsb with rfl | hb
          · exact Or.inr ⟨w0, rfl⟩
          · left
            rw [show addColsList (w0 :: rest) (addCols ctx.pref 0 ctx.tabstop) ctx.tabstop
                = addColsList rest (addCols w0 (addCols ctx.pref 0 ctx.tabstop) ctx.tabstop)
                  ctx.tabstop from rfl]
            rw [← cols0_eq ctx.pref ctx.tabstop]
            exact hb
      | some j =>
        have hemit : addCols (printWordsAsLine ((w0 :: rest).take j) ctx) 0 ctx.tabstop
              ≤ ctx.width ∨
            ∃ k w, isWordTok w = true ∧
              printWordsAsLine ((w0 :: rest).take j) ctx = iterPrefix k ctx.pref ++ w := by
          apply emission_cases ctx ((w0 :: rest).take j) hj
            (fun w hw => hcl w (List.take_subset _ _ hw))
          rcases scanBreak_some_bound _ _ rest _ _ _ hsb with h1 | hb
          · subst h1
            exact Or.inr ⟨w0, by simp⟩
          · left
            have h1j : 1 ≤ j := (scanBreak_some_ge _ _ rest _ _ _ hsb).1
            obtain ⟨j', rfl⟩ : ∃ j', j = j' + 1 := ⟨j - 1, by omega⟩
            rw [List.take_succ_cons]
            rw [show addColsList (w0 :: rest.take j')
                  (addCols ctx.pref 0 ctx.tabstop) ctx.tabstop
                = addColsList (rest.take j')
                  (addCols w0 (addCols ctx.pref 0 ctx.tabstop) ctx.tabstop) ctx.tabstop
                from rfl]
            rw [← cols0_eq ctx.pref ctx.tabstop]
            rw [show j' + 1 - 1 = j' from rfl] at hb
            exact hb
        simp only [hsb] at hL
        by_cases hre : (((w0 :: rest).drop j).dropWhile fun w => isWhitespace w).isEmpty
        · simp only [hre, if_true] at hL
          rcases List.mem_singleton.mp hL with rfl
          exact hemit
        · simp only [hre, Bool.false_eq_true, if_false] at hL
          rcases List.mem_cons.mp hL with rfl | hrec
          · exact hemit
          · have hcl2 : ∀ w ∈ ((w0 :: rest).drop j).dropWhile fun w => isWhitespace w,
                isWhitespace w = true ∨ isWordTok w = true := by
              intro w hw
              exact hcl w (List.drop_subset _ _ ((List.dropWhile_sublist _).subset hw))
            rcases ih (((w0 :: rest).drop j).dropWhile fun w => isWhitespace w)
                { ctx with pref := nextPrefix ctx.pref } hj hcl2 L hrec with hle | ⟨k, w, hwt, hLw⟩
            · exact Or.inl hle
            · exact Or.inr ⟨k + 1, w, hwt, hLw⟩

/-- Claim C1 (amended): in non-justify mode, every emitted physical line
either fits within width or consists of the current prefix (advanced
zero or more times to its continuation form) followed by at most one
word token; the prefix and that single unsplittable token may jointly
exceed width even when the token alone fits
(widthBoundCounterexample). -/
theorem processWordsWidthBound (ctx : Context) (words : List (List Char))
    (hj : ctx.justify = false)
    (hcl : ∀ w ∈ ctx.underflow.getD [] ++ words,
      isWhitespace w = true ∨ isWordTok w = true) :
    ∀ L ∈ (processWords words ctx).1,
      addCols L 0 ctx.tabstop ≤ ctx.width ∨
      ∃ k w, isWordTok w = true ∧ L = iterPrefix k ctx.pref ++ w := by
  rw [processWords]
  split
  · exact pack_width_bound _ _ { ctx with underflow := none } hj hcl
  · exact pack_width_bound _ _ ctx hj
      (fun w hw => hcl w (List.mem_append_right _ hw))

/-- Witness for C1: the over-wide emitted line "  abc" at width 4 is the
prefix plus one word token. -/
theorem processWordsWidthBoundWitness :
    addCols ( chars r"  abc") 0 8 ≤ 4 ∨
    ∃ k w, isWordTok w = true ∧
      chars r"  abc" = iterPrefix k ( chars r"  ") ++ w :=
  processWordsWidthBound
    { flow := false, justify := false, width := 4, tabstop := 8,
      pref := chars r"  ", code := false, underflow := none }
    [ chars r"abc"] rfl (by decide) ( chars r"  abc") (by decide)

/-! ## Identity of the reflow on already-fitting documents -/

theorem all_eq_false_of_mem (p : Char → Bool) (l : List Char) (x : Char)
    (hx : x ∈ l) (hpx : p x = false) : l.all p = false := by
  rw [← Bool.not_eq_true]
  intro h
  rw [List.all_eq_true] at h
  rw [h x hx] at hpx
  cases hpx

theorem rstrip_snoc (L : List Char) (hr : rstrip L = L) :
    L = [] ∨ ∃ s c, L = s ++ [c] ∧ pyWS c = false := by
  rw [rstrip] at hr
  have hrev : L.reverse.dropWhile pyWS = L.reverse := by
    rw [← List.reverse_inj, List.reverse_reverse] at hr
    exact hr
  cases hc : L.reverse with
  | nil =>
    left
    rw [← List.reverse_inj, hc, List.reverse_nil]
  | cons c s =>
    right
    rw [hc] at hrev
    by_cases hws : pyWS c
    · rw [List.dropWhile_cons_of_pos hws] at hrev
      have hlen := length_dropWhile_le pyWS s
      have := congrArg List.length hrev
      simp only [List.length_cons] at this
      omega
    · refine ⟨s.reverse, c, ?_, Bool.eq_false_iff.mpr hws⟩
      rw [← List.reverse_inj, hc, List.reverse_append, List.reverse_reverse,
        List.reverse_singleton]
      rfl

theorem getLast?_snoc_form (l : List Char) (c : Char) (h : l.getLast? = some c) :
    ∃ s, l = s ++ [c] := by
  rw [List.getLast?_eq_head?_reverse] at h
  cases hr : l.reverse with
  | nil =>
    rw [hr] at h
    cases h
  | cons a as =>
    rw [hr] at h
    rcases Option.some.inj h with rfl
    refine ⟨as.reverse, ?_⟩
    rw [← List.reverse_inj, hr, List.reverse_append, List.reverse_reverse,
      List.reverse_singleton]
    rfl

theorem dropWhile_head_ws (t : List Char) (a : Char) (as : List Char)
    (h : (t.dropWhile fun c => !(pyWS c)) = a :: as) : pyWS a = true := by
  have hmt := List.head?_dropWhile_not (fun c => !(pyWS c)) t
  rw [h] at hmt
  simp only [List.head?_cons] at hmt
  simpa using hmt

theorem splitWordsF_flatten (fuel : Nat) (t : List Char) (hf : t.length ≤ fuel) :
    (splitWordsF fuel t).flatten = t := by
  induction fuel generalizing t with
  | zero =>
    have ht : t = [] := List.length_eq_zero.mp (Nat.le_zero.mp hf)
    subst ht
    rfl
  | succ fuel ih =>
    simp only [splitWordsF]
    by_cases hre : (t.dropWhile fun c => !(pyWS c)).isEmpty
    · rw [if_pos hre]
      have hdw : (t.dropWhile fun c => !(pyWS c)) = [] := List.isEmpty_iff.mp hre
      rw [List.flatten_cons, List.flatten_nil, List.append_nil]
      conv_rhs => rw [← List.takeWhile_append_dropWhile (p := fun c => !(pyWS c)) (l := t)]
      rw [hdw, List.append_nil]
    · rw [if_neg hre]
      cases hc : t.dropWhile fun c => !(pyWS c) with
      | nil =>
        rw [hc] at hre
        exact absurd rfl hre
      | cons a as =>
        have hwsa : pyWS a = true := dropWhile_head_ws t a as hc
        rw [List.flatten_cons, List.flatten_cons]
        have hlen : ((a :: as).dropWhile pyWS).length ≤ fuel := by
          rw [List.dropWhile_cons_of_pos hwsa]
          have h1 := length_dropWhile_le pyWS as
          have h2 : (a :: as).length ≤ t.length := by
            rw [← hc]
            exact length_dropWhile_le _ t
          simp only [List.length_cons] at h2
          omega
        rw [ih _ hlen]
        rw [List.takeWhile_append_dropWhile]
        rw [← hc, List.takeWhile_append_dropWhile]

theorem splitWordsF_last_word (fuel : Nat) (t : List Char) (hf : t.length ≤ fuel)
    (hsn : ∃ s c, t = s ++ [c] ∧ pyWS c = false) :
    ∃ init w, splitWordsF fuel t = init ++ [w] ∧ isWhitespace w = false := by
  induction fuel generalizing t with
  | zero =>
    rcases hsn with ⟨s, c, rfl, _⟩
    have := Nat.le_zero.mp hf
    simp at this
  | succ fuel ih =>
    rcases hsn with ⟨s, c, hsc, hcw⟩
    simp only [splitWordsF]
    by_cases hre : (t.dropWhile fun c => !(pyWS c)).isEmpty
    · rw [if_pos hre]
      have hdw : (t.dropWhile fun c => !(pyWS c)) = [] := List.isEmpty_iff.mp hre
      have htw : (t.takeWhile fun c => !(pyWS c)) = t := by
        conv_rhs => rw [← List.takeWhile_append_dropWhile (p := fun c => !(pyWS c)) (l := t)]
        rw [hdw, List.append_nil]
      refine ⟨[], t.takeWhile fun c => !(pyWS c), by rw [List.nil_append], ?_⟩
      rw [htw]
      exact all_eq_false_of_mem pyWS t c (by rw [hsc]; simp) hcw
    · rw [if_neg hre]
      have hrne : (t.dropWhile fun c => !(pyWS c)) ≠ [] := by
        intro h0
        rw [h0] at hre
        exact hre rfl
      have hlast : (t.dropWhile fun c => !(pyWS c)).getLast? = some c := by
        rcases List.dropWhile_suffix (l := t) (fun c => !(pyWS c)) with ⟨pre, hpre⟩
        have h1 : t.getLast? = some c := by
          rw [hsc, List.getLast?_concat]
        rw [← hpre] at h1
        rwa [List.getLast?_append_of_ne_nil pre hrne] at h1
      have hrne2 : ((t.dropWhile fun c => !(pyWS c)).dropWhile pyWS) ≠ [] := by
        intro h0
        rw [List.dropWhile_eq_nil_iff] at h0
        have hcm : c ∈ (t.dropWhile fun c => !(pyWS c)) := by
          rcases getLast?_snoc_form _ c hlast with ⟨s2, hs2⟩
          rw [hs2]
          simp
        rw [h0 c hcm] at hcw
        cases hcw
      have hlast2 : ((t.dropWhile fun c => !(pyWS c)).dropWhile pyWS).getLast? = some c := by
        rcases List.dropWhile_suffix (l := (t.dropWhile fun c => !(pyWS c))) pyWS
          with ⟨pre2, hpre2⟩
        have h1 := hlast
        rw [← hpre2] at h1
        rwa [List.getLast?_append_of_ne_nil pre2 hrne2] at h1
      have hlt : ((t.dropWhile fun c => !(pyWS c)).dropWhile pyWS).length
          < (t.dropWhile fun c => !(pyWS c)).length := by
        cases hc2 : t.dropWhile fun c => !(pyWS c) with
        | nil => exact absurd hc2 hrne
        | cons a as =>
          have hwsa : pyWS a = true := dropWhile_head_ws t a as hc2
          rw [List.dropWhile_cons_of_pos hwsa]
          have h1 := length_dropWhile_le pyWS as
          simp only [List.length_cons]
          omega
      have hrle : (t.dropWhile fun c => !(pyWS c)).length ≤ t.length :=
        length_dropWhile_le _ t
      rcases getLast?_snoc_form _ c hlast2 with ⟨s3, hs3⟩
      rcases ih ((t.dropWhile fun c => !(pyWS c)).dropWhile pyWS) (by omega)
        ⟨s3, c, hs3, hcw⟩ with ⟨init, w, hiw, hwws⟩
      refine ⟨(t.takeWhile fun c => !(pyWS c)) :: (t.dropWhile fun c => !(pyWS c)).takeWhile pyWS
        :: init, w, ?_, hwws⟩
      rw [hiw]
      rfl

theorem printedWords_snoc (init : List (List Char)) (w : List Char)
    (hw : isWhitespace w = false) : printedWords (init ++ [w]) = init ++ [w] := by
  induction init with
  | nil =>
    rw [List.nil_append, printedWords]
    simp [printedWords, hw]
  | cons x xs ih =>
    rw [List.cons_append, printedWords, ih]
    cases hxw : xs ++ [w] with
    | nil => exact absurd hxw (by simp)
    | cons a as => rfl

theorem scanBreak_none_of_fits (width t : Nat) (rest : List (List Char)) :
    ∀ (cols done : Nat), addColsList rest cols t ≤ width →
      scanBreak width t cols done rest = none := by
  induction rest with
  | nil =>
    intro _ _ _
    rfl
  | cons w ws ih =>
    intro cols done hle
    rw [scanBreak]
    have h1 : addCols w cols t ≤ width :=
      Nat.le_trans (addColsList_le ws (addCols w cols t) t) hle
    rw [if_neg (by omega)]
    exact ih _ _ hle

theorem printWordsAsLine_nonflow (ws : List (List Char)) (ctx : Context)
    (hf : ctx.flow = false) :
    printWordsAsLine ws ctx = ctx.pref ++ (printedWords ws).flatten := by
  simp [printWordsAsLine, hf]

theorem resolveContext_of_none (ctx : Context) (h : ctx.underflow = none) :
    resolveContext ctx = ([], ctx) := by
  rw [resolveContext, h]
  rfl

theorem nextPrefix_no_star (p : List Char) (h : p.contains '*' = false) :
    nextPrefix p = p := by
  rw [nextPrefix, h]
  rfl

theorem processWords_all_ws_single (ctx : Context) (hfl : ctx.flow = false)
    (hun : ctx.underflow = none) :
    processWords [[]] ctx = ([ctx.pref], ctx) := by
  rw [processWords, hun]
  rw [if_neg (by simp [truthyU])]
  show pack 1 [[]] ctx = ([ctx.pref], ctx)
  simp [pack, scanBreak, hfl, printWordsAsLine, printedWords, isWhitespace]

theorem processWords_fits (ctx : Context) (w0 : List Char) (ws0 : List (List Char))
    (hfl : ctx.flow = false) (hun : ctx.underflow = none)
    (hfit : addColsList (w0 :: ws0) (addCols ctx.pref 0 ctx.tabstop) ctx.tabstop ≤ ctx.width) :
    processWords (w0 :: ws0) ctx = ([printWordsAsLine (w0 :: ws0) ctx], ctx) := by
  rw [processWords, hun]
  rw [if_neg (by simp [truthyU])]
  show pack (ws0.length + 1) (w0 :: ws0) ctx = _
  rw [pack]
  have hsb : scanBreak ctx.width ctx.tabstop
      (addCols w0 (if ctx.pref.isEmpty then 0 else addCols ctx.pref 0 ctx.tabstop) ctx.tabstop)
      1 ws0 = none := by
    apply scanBreak_none_of_fits
    rw [cols0_eq]
    exact hfit
  simp only [hsb, hfl, Bool.false_eq_true, if_false]

theorem processLine_identity (L : List Char) (ctx : Context)
    (hfl : ctx.flow = false) (hcode : ctx.code = false)
    (hun : ctx.underflow = none)
    (hpx : ctx.pref.contains '*' = false)
    (hr : rstrip L = L)
    (hfit : addCols L 0 ctx.tabstop ≤ ctx.width) :
    ∃ pfx, guessPrefix L = some pfx ∧
      processLine L ctx = ([L], { ctx with pref := pfx }) := by
  have hsn := rstrip_snoc L hr
  have hmem : L = [] ∨ ∃ c ∈ L, pyWS c = false := by
    rcases hsn with rfl | ⟨s, c, rfl, hc⟩
    · exact Or.inl rfl
    · exact Or.inr ⟨c, by simp, hc⟩
  obtain ⟨k, hk, hg⟩ := guessPrefix_take L hmem
  refine ⟨L.take k, hg, ?_⟩
  have hlen : (L.take k).length = k := by
    rw [List.length_take]
    omega
  rw [processLine, hr, hg]
  simp only [hlen]
  by_cases hdk : L.drop k = []
  · have hLt : L.take k = L := by
      conv_rhs => rw [← List.take_append_drop k L]
      rw [hdk, List.append_nil]
    rw [hdk]
    rw [show splitWords [] = [[]] from rfl]
    rw [if_pos (Or.inr (by rfl))]
    rw [resolveContext_of_none ctx hun]
    rw [if_neg (by simp [hcode])]
    rw [processWords_all_ws_single { ctx with pref := L.take k } hfl hun]
    rw [hLt]
    rfl
  · have hLne : L ≠ [] := by
      intro h0
      rw [h0] at hdk
      exact hdk (List.drop_nil)
    obtain ⟨s, c, hsc, hcw⟩ : ∃ s c, L = s ++ [c] ∧ pyWS c = false := by
      rcases hsn with rfl | h
      · exact absurd rfl hLne
      · exact h
    have hlast : (L.drop k).getLast? = some c := by
      rcases List.drop_suffix k L with ⟨pre, hpre⟩
      have h1 : L.getLast? = some c := by
        rw [hsc, List.getLast?_concat]
      rw [← hpre] at h1
      rwa [List.getLast?_append_of_ne_nil pre hdk] at h1
    obtain ⟨s2, hs2⟩ := getLast?_snoc_form _ c hlast
    obtain ⟨init, w', hiw, hw'⟩ := splitWordsF_last_word (L.drop k).length (L.drop k)
      (Nat.le_refl _) ⟨s2, c, hs2, hcw⟩
    have hws : splitWords (L.drop k) = init ++ [w'] := hiw
    have hflat : (splitWords (L.drop k)).flatten = L.drop k :=
      splitWordsF_flatten _ _ (Nat.le_refl _)
    have hallws : (splitWords (L.drop k)).all (fun w => isWhitespace w) = false := by
      rw [hws, List.all_append]
      simp [hw']
    have hpr : printedWords (splitWords (L.drop k)) = splitWords (L.drop k) := by
      rw [hws]
      exact printedWords_snoc init w' hw'
    cases hwcons : splitWords (L.drop k) with
    | nil =>
      rw [hwcons] at hws
      exact absurd hws.symm (by simp)
    | cons w0 ws0 =>
      have hfit2 : addColsList (w0 :: ws0) (addCols (L.take k) 0 ctx.tabstop)
          ctx.tabstop ≤ ctx.width := by
        rw [addColsList_flatten, ← hwcons, hflat, ← addCols_append, List.take_append_drop]
        exact hfit
      have hline : ∀ cc : Context, cc.flow = false → cc.pref = L.take k →
          printWordsAsLine (w0 :: ws0) cc = L := by
        intro cc hccf hccp
        rw [printWordsAsLine_nonflow _ _ hccf, hccp, ← hwcons, hpr, hflat,
          List.take_append_drop]
      rw [hwcons] at hallws
      by_cases hcond : L.take k ≠ nextPrefix ctx.pref ∨
          ((w0 :: ws0).all fun w => isWhitespace w) = true
      · rw [if_pos hcond]
        rw [resolveContext_of_none ctx hun]
        rw [if_neg (by simp [hcode])]
        rw [processWords_fits { ctx with pref := L.take k } w0 ws0 hfl hun hfit2]
        rw [hline { ctx with pref := L.take k } hfl rfl]
        rfl
      · rw [if_neg hcond]
        push_neg at hcond
        have hpfx : L.take k = ctx.pref := by
          rw [hcond.1, nextPrefix_no_star ctx.pref hpx]
        rw [if_neg (by simp [hcode])]
        have hfit3 : addColsList (w0 :: ws0) (addCols ctx.pref 0 ctx.tabstop)
            ctx.tabstop ≤ ctx.width := by
          rw [← hpfx]
          exact hfit2
        rw [processWords_fits ctx w0 ws0 hfl hun hfit3]
        rw [hline ctx hfl hpfx.symm]
        rw [hpfx]
        rfl

theorem processDoc_identity_aux (lines : List (List Char)) (ctx : Context)
    (hfl : ctx.flow = false) (hcode : ctx.code = false)
    (hun : ctx.underflow = none) (hpx : ctx.pref.contains '*' = false)
    (hall : ∀ L ∈ lines, rstrip L = L ∧ addCols L 0 ctx.tabstop ≤ ctx.width ∧
      ((guessPrefix L).getD []).contains '*' = false) :
    (processDoc lines ctx).1 = lines := by
  induction lines generalizing ctx with
  | nil =>
    rw [processDoc, resolveContext_of_none ctx hun]
  | cons L ls ih =>
    rcases hall L (List.mem_cons_self _ _) with ⟨h1, h2, h3⟩
    obtain ⟨pfx, hg, hpl⟩ := processLine_identity L ctx hfl hcode hun hpx h1 h2
    have hpfree : pfx.contains '*' = false := by
      rw [hg] at h3
      simpa using h3
    have hall2 : ∀ L' ∈ ls, rstrip L' = L' ∧ addCols L' 0 ctx.tabstop ≤ ctx.width ∧
        ((guessPrefix L').getD []).contains '*' = false :=
      fun L' hL' => hall L' (List.mem_cons_of_mem _ hL')
    rw [processDoc, hpl]
    have hrec := ih { ctx with pref := pfx } hfl hcode hun hpfree hall2
    simp only []
    rw [hrec]
    rfl

/-- Claim C4 (amended): with flow, justify and code all false, the full
per-document reflow is the identity on every document whose lines are
already reflowed — each line has no trailing whitespace, fits within
width, and carries no bullet (asterisk) prefix — so reformatting such
output with the same configuration is byte-identical.  Unrestricted
idempotence fails: a wrapped bullet-continuation line is re-emitted
under the stale bullet prefix by the second pass
(idempotenceCounterexample). -/
theorem reflowIdentity (w t : Nat) (lines : List (List Char))
    (hall : ∀ L ∈ lines, rstrip L = L ∧ addCols L 0 t ≤ w ∧
      ((guessPrefix L).getD []).contains '*' = false) :
    (processDoc lines (initCtx false false false w t)).1 = lines :=
  processDoc_identity_aux lines (initCtx false false false w t) rfl rfl rfl rfl hall

/-- Witness for C4's amended identity at a two-line comment document. -/
theorem reflowIdentityWitness :
    (processDoc [ chars r"// hello", chars r"// world"]
      (initCtx false false false 80 8)).1 = [ chars r"// hello", chars r"// world"] :=
  reflowIdentity 80 8 [ chars r"// hello", chars r"// world"] (by decide)

/-! ## Validation of the integer filler-index model -/

theorem pyTrunc_intCast_div (num d : ℤ) (hd : 0 < d) :
    pyTrunc ((num : ℚ) / (d : ℚ)) = Int.tdiv num d := by
  have hfl : ∀ m : ℤ, 0 ≤ m → Rat.floor ((m : ℚ) / (d : ℚ)) = m / d := by
    intro m hm
    have hdn : ((d.toNat : ℕ) : ℤ) = d := Int.toNat_of_nonneg (Int.le_of_lt hd)
    have hq : ((m : ℚ) / (d : ℚ)) = (m : ℚ) / ((d.toNat : ℕ) : ℚ) := by
      congr 1
      exact_mod_cast hdn.symm
    have h2 : Rat.floor ((m : ℚ) / ((d.toNat : ℕ) : ℚ))
        = ⌊((m : ℚ) / ((d.toNat : ℕ) : ℚ))⌋ := rfl
    rw [hq, h2, Rat.floor_intCast_div_natCast, hdn]
  have hdq : (0 : ℚ) < (d : ℚ) := by exact_mod_cast hd
  rw [pyTrunc]
  by_cases hn : 0 ≤ num
  · rw [if_neg (not_lt.mpr (div_nonneg (by exact_mod_cast hn) (le_of_lt hdq)))]
    rw [hfl num hn]
    exact (Int.tdiv_eq_ediv hn (Int.le_of_lt hd)).symm
  · push_neg at hn
    have hq : ((num : ℚ) / (d : ℚ)) < 0 := by
      apply div_neg_of_neg_of_pos _ hdq
      exact_mod_cast hn
    rw [if_pos hq]
    have hneg : -((num : ℚ) / (d : ℚ)) = ((-num : ℤ) : ℚ) / (d : ℚ) := by
      push_cast
      ring
    rw [hneg, hfl (-num) (by omega)]
    rw [show Int.tdiv num d = -(Int.tdiv (-num) d) from by rw [Int.neg_tdiv]; ring]
    rw [Int.tdiv_eq_ediv (by omega) (Int.le_of_lt hd)]

theorem fillPos_eq_fillPosRat (n : Nat) (d : ℤ) (i : Nat) (hd : 0 < d) :
    fillPos n d i = fillPosRat n d i := by
  rw [fillPos, fillPosRat]
  have hq : ((n : ℚ) - 1) - ((i : ℚ) / (d : ℚ)) * ((n : ℚ) - 2)
      = (((((n : ℤ) - 1) * d - (i : ℤ) * ((n : ℤ) - 2)) : ℤ) : ℚ) / (d : ℚ) := by
    have hdq : ((d : ℚ)) ≠ 0 := by
      have h0 : (0 : ℚ) < (d : ℚ) := by exact_mod_cast hd
      exact ne_of_gt h0
    field_simp
  rw [hq, pyTrunc_intCast_div _ _ hd]
